import Mathlib

set_option maxRecDepth 2000

/-!
Shallow embedding of the Sudoku model in `src/Sudoku/sdk_board.py`
(classes `Tile` and `Board`), together with proofs about the candidate
propagation tactic `naked_single`, the consistency check `is_consistent`,
the serialisation round trip and the `solve` loop.

Python sets of symbols are modelled as `Finset Char`; a tile is a record of
its row, column, value and candidate set.  The listener/notification fields
carry no solving state and are not modelled; the event emissions noted in
the Python docstrings are side effects only.  The board is the row-major
list of rows of tiles, exactly as `Board.tiles`.
-/

namespace Sudoku

/-- Modelled from the spec: the configuration module `sdk_config` is imported
by `sdk_board.py` but is not part of the sources; the spec fixes a 9×9 grid
with 3×3 blocks, an alphabet of nine symbols and the placeholder `.` for
"unset".  -/
def CHOICES : List Char := ['1', '2', '3', '4', '5', '6', '7', '8', '9']

/-- Modelled from the spec: the designated placeholder symbol for an unset
tile value. -/
def UNKNOWN : Char := '.'

/-- Modelled from the spec: the block side length (integer square root of the
alphabet size). -/
def ROOT : Nat := 3

/-- Modelled from the spec: number of rows of the grid. -/
def NROWS : Nat := 9

/-- Modelled from the spec: number of columns of the grid. -/
def NCOLS : Nat := 9

/-- One tile of the grid: `Tile.__init__` stores `row` and `col`, while
`value` and `candidates` are installed by `set_value`. -/
structure Tile where
  row : Nat
  col : Nat
  value : Char
  candidates : Finset Char
deriving DecidableEq

/-- The tile returned by an out-of-range board access (Python would raise an
`IndexError`; the embedding totalises with a tile that no operation can
touch, since its candidate set is empty and its value is unset). -/
def dummyTile : Tile := ⟨0, 0, UNKNOWN, ∅⟩

/-- `Tile.set_value`: a value in `CHOICES` is installed with the singleton
candidate set; any other value (the placeholder included) resets the tile to
unset with the full alphabet as candidates.  No assertion is made here. -/
def Tile.set_value (t : Tile) (v : Char) : Tile :=
  if v ∈ CHOICES then { t with value := v, candidates := {v} }
  else { t with value := UNKNOWN, candidates := CHOICES.toFinset }

/-- `Tile.__init__`: asserts `value == UNKNOWN or value in CHOICES`, then
delegates to `set_value`.  The assertion failure is modelled as `none`. -/
def Tile.init (row col : Nat) (v : Char) : Option Tile :=
  if v = UNKNOWN ∨ v ∈ CHOICES then
    some (Tile.set_value ⟨row, col, UNKNOWN, ∅⟩ v)
  else none

/-- `Tile.could_be`: membership in the candidate set. -/
def Tile.could_be (t : Tile) (v : Char) : Bool := v ∈ t.candidates

/-- `Tile.remove_candidates`: computes the set difference; returns `false`
with the tile untouched when nothing changes; otherwise installs the
difference, auto-sets the value when exactly one candidate is left (Python
pops the sole element of the singleton), and returns `true`. -/
def Tile.remove_candidates (t : Tile) (used : Finset Char) : Tile × Bool :=
  if t.candidates \ used = t.candidates then
    (t, false)
  else if h : (t.candidates \ used).card = 1 then
    (Tile.set_value { t with candidates := t.candidates \ used }
      ((t.candidates \ used).min' (Finset.card_pos.mp (by omega))), true)
  else
    ({ t with candidates := t.candidates \ used }, true)

/-- `Board.tiles`: the row-major matrix of tiles. -/
abbrev Board := List (List Tile)

/-- Read the tile at position `p = (row, col)`. -/
def getTile (b : Board) (p : Nat × Nat) : Tile :=
  (b.getD p.1 []).getD p.2 dummyTile

/-- Replace the tile at position `p = (row, col)` (in-place mutation of
`self.tiles[row][col]` in Python). -/
def setTile (b : Board) (p : Nat × Nat) (t : Tile) : Board :=
  b.set p.1 ((b.getD p.1 []).set p.2 t)

/-- The nine block groups, in the construction order of `Board.__init__`:
outer loops over `block_row` then `block_col`, inner loops over `row` then
`col`. -/
def blockGroups : List (List (Nat × Nat)) :=
  (List.range ROOT).foldr (fun br acc =>
    ((List.range ROOT).map (fun bc =>
      (List.range ROOT).foldr (fun r acc2 =>
        ((List.range ROOT).map (fun c => (ROOT * br + r, ROOT * bc + c))) ++ acc2)
        [])) ++ acc) []

/-- The nine row groups: `Board.__init__` appends each row of `self.tiles`. -/
def rowGroups : List (List (Nat × Nat)) :=
  (List.range NROWS).map fun r => (List.range NCOLS).map fun c => (r, c)

/-- The nine column groups: `Board.__init__` reads `self.tiles[col][row]`,
i.e. a transposed traversal of the storage. -/
def colGroups : List (List (Nat × Nat)) :=
  (List.range NROWS).map fun r => (List.range NCOLS).map fun c => (c, r)

/-- `Board.groups` after construction: blocks, then rows, then columns. -/
def groups : List (List (Nat × Nat)) := blockGroups ++ rowGroups ++ colGroups

/-- `Board.__init__` builds every tile as `Tile(row, col)`, i.e. with the
default value `UNKNOWN`, so each starts unset with the full candidate set. -/
def emptyBoard : Board :=
  (List.range NROWS).map fun r =>
    (List.range NCOLS).map fun c => (⟨r, c, UNKNOWN, CHOICES.toFinset⟩ : Tile)

/-- One row of `Board.set_tiles`: the inner `for col_num in range(NCOLS)`
loop, calling `set_value` on the stored tile with the given symbol. -/
def setTilesRow (vals : List (List Char)) (acc : Board) (r : Nat) : Board :=
  (List.range NCOLS).foldl (fun acc c =>
    setTile acc (r, c)
      (Tile.set_value (getTile acc (r, c)) ((vals.getD r []).getD c UNKNOWN))) acc

/-- `Board.set_tiles`: sets every tile's value in row-major order from the
given rows of symbols. -/
def set_tiles (b : Board) (vals : List (List Char)) : Board :=
  (List.range NROWS).foldl (setTilesRow vals) b

/-- `Board.__str__` / the row-strings rendering: one row of value symbols
per board row (a string is a list of characters). -/
def toRows (b : Board) : List (List Char) :=
  b.map fun row => row.map Tile.value

/-- The inner loop of `Board.is_consistent` for one group: walk the tiles,
remember the concrete values seen, and flag a value seen twice (the Python
code returns `False` from inside the loop; the flag is monotone so the
result agrees). -/
def dupStep (st : Finset Char × Bool) (v : Char) : Finset Char × Bool :=
  if v ∈ CHOICES then
    (if v ∈ st.1 then (st.1, true) else (insert v st.1, st.2))
  else st

def groupDuplicate (b : Board) (g : List (Nat × Nat)) : Bool :=
  (g.foldl (fun st p => dupStep st (getTile b p).value) (∅, false)).2

/-- `Board.is_consistent`: `True` exactly when no group flags a duplicate. -/
def is_consistent (b : Board) : Bool :=
  ! (groups.any fun g => groupDuplicate b g)

/-- The first loop of `Board.naked_single` over one group: collect the values
of the tiles whose value is in `CHOICES`. -/
def groupUsedValues (b : Board) (g : List (Nat × Nat)) : Finset Char :=
  g.foldl (fun used p =>
    let t := getTile b p
    if t.value ∈ CHOICES then insert t.value used else used) ∅

/-- One step of the second loop of `Board.naked_single`: when the tile is
unset and the group has used values, apply `remove_candidates` and bump the
progress counter if it reports a removal. -/
def nsStep (used : Finset Char) (acc : Board × Nat) (p : Nat × Nat) : Board × Nat :=
  if (getTile acc.1 p).value = UNKNOWN ∧ 0 < used.card then
    (setTile acc.1 p (Tile.remove_candidates (getTile acc.1 p) used).1,
      acc.2 + (if (Tile.remove_candidates (getTile acc.1 p) used).2 then 1 else 0))
  else acc

/-- `Board.naked_single` restricted to one group: compute the used values
from the state at the start of the group, then run the second loop. -/
def nakedSingleGroup (acc : Board × Nat) (g : List (Nat × Nat)) : Board × Nat :=
  g.foldl (nsStep (groupUsedValues acc.1 g)) acc

/-- `Board.naked_single`: one pass over all groups; the counter
`candidate_set_before` counts the `remove_candidates` calls that returned
`True`, and the method returns `True` exactly when the counter is
positive. -/
def naked_single (b : Board) : Board × Bool :=
  let r := groups.foldl nakedSingleGroup (b, 0)
  (r.1, decide (0 < r.2))

/-- The total number of candidates over all tiles of the board (the
termination measure for the `solve` loop). -/
def totalCandidates (b : Board) : Nat :=
  (b.map fun row => (row.map fun t => t.candidates.card).sum).sum

/-- The `while progress: progress = self.naked_single()` loop of
`Board.solve`, with explicit fuel.  The fuel `totalCandidates b + 1` used by
`solve` is proved sufficient (`solveLoop_fuel_le`): the loop reaches a pass
with no progress before the fuel runs out, so the embedding agrees with the
unbounded Python loop on every well-formed board. -/
def solveLoop : Nat → Board → Board
  | 0, b => b
  | fuel + 1, b =>
    let r := naked_single b
    if r.2 then solveLoop fuel r.1 else r.1

/-- `Board.solve`: runs the propagation loop and falls off the end with a
bare `return`, i.e. it returns the Python value `None`, modelled as `none`
(a boolean result would be `some true` / `some false`). -/
def solve (b : Board) : Board × Option Bool :=
  (solveLoop (totalCandidates b + 1) b, none)

/-- A tile is well formed when its candidates are drawn from the alphabet
and its value is either unset or a symbol of the alphabet; every tile the
program ever builds satisfies this. -/
def WfTile (t : Tile) : Prop :=
  t.candidates ⊆ CHOICES.toFinset ∧ (t.value = UNKNOWN ∨ t.value ∈ CHOICES)

instance : DecidablePred WfTile := fun t => by unfold WfTile; infer_instance

/-- A board is well formed when all its tiles are. -/
def WfBoard (b : Board) : Prop :=
  ∀ row ∈ b, ∀ t ∈ row, WfTile t

instance : DecidablePred WfBoard := fun b => by unfold WfBoard; infer_instance

/-- A board position is in range when both indices address stored tiles. -/
def InRange (b : Board) (p : Nat × Nat) : Prop :=
  p.1 < b.length ∧ p.2 < (b.getD p.1 []).length

instance (b : Board) (p : Nat × Nat) : Decidable (InRange b p) := by
  unfold InRange; infer_instance

/-- The documented tile invariant: a tile whose value is a concrete symbol of
the alphabet has exactly the singleton candidate set of that value. -/
def TileInv (t : Tile) : Prop :=
  t.value ∈ CHOICES → t.candidates = {t.value}

instance : DecidablePred TileInv := fun t => by unfold TileInv; infer_instance

/-- A tile holding the symbol 1, as produced by `set_value` with `'1'`. -/
def tileOne : Tile := ⟨0, 0, '1', {'1'}⟩

/-- The board obtained from the empty board by installing `tileOne` at the
top-left corner. -/
def bOne : Board := setTile emptyBoard (0, 0) tileOne

/-- The candidate set of an unset tile from which the symbol 1 has been
eliminated by `remove_candidates`. -/
def prunedCandidates : Finset Char := CHOICES.toFinset \ {'1'}

/-- An unset tile whose candidates have been pruned, as `remove_candidates`
leaves tile (0,1) after a naked-single pass against the 1 at (0,0). -/
def tilePruned : Tile := ⟨0, 1, UNKNOWN, prunedCandidates⟩

/-- A grid state reachable by placing a 1 at (0,0) and eliminating 1 from
the candidates of the neighbouring unset tile (0,1): the witness state for
the serialisation round trip losing pruned candidate information. -/
def bCex : Board := setTile bOne (0, 1) tilePruned

/-- The first row group, used to instantiate group-distinctness facts. -/
def rowGroupZero : List (Nat × Nat) :=
  (List.range NCOLS).map fun c => (0, c)

lemma unknown_not_mem_choices : UNKNOWN ∉ CHOICES := by decide

lemma list_set_getD_self {α : Type _} (l : List α) (i : Nat) (d : α) :
    l.set i (l.getD i d) = l := by
  induction l generalizing i with
  | nil => rfl
  | cons a t ih =>
    cases i with
    | zero => rfl
    | succ n => simpa [List.getD_cons_succ] using congrArg (a :: ·) (ih n)

lemma list_sum_set (l : List Nat) (i : Nat) (x : Nat) (h : i < l.length) :
    (l.set i x).sum + l.getD i 0 = l.sum + x := by
  induction l generalizing i with
  | nil => simp at h
  | cons a t ih =>
    cases i with
    | zero => simp; omega
    | succ n =>
      have := ih n (by simpa using h)
      simp only [List.set_cons_succ, List.sum_cons, List.getD_cons_succ]
      omega

lemma list_getD_set_ne {α : Type _} (l : List α) (i j : Nat) (hij : i ≠ j)
    (a : α) (d : α) : (l.set i a).getD j d = l.getD j d := by
  simp [List.getElem?_set_ne hij]

lemma list_getD_set_self {α : Type _} (l : List α) (i : Nat) (h : i < l.length)
    (a : α) (d : α) : (l.set i a).getD i d = a := by
  simp [List.getElem?_set_self h]

lemma getTile_oob (b : Board) (p : Nat × Nat) (h : ¬ InRange b p) :
    getTile b p = dummyTile := by
  unfold InRange at h
  push_neg at h
  unfold getTile
  rcases Nat.lt_or_ge p.1 b.length with h1 | h1
  · exact List.getD_eq_default _ _ (h h1)
  · rw [List.getD_eq_default _ _ h1]
    simp

lemma setTile_oob (b : Board) (p : Nat × Nat) (t : Tile) (h : ¬ InRange b p) :
    setTile b p t = b := by
  unfold InRange at h
  push_neg at h
  unfold setTile
  rcases Nat.lt_or_ge p.1 b.length with h1 | h1
  · rw [List.set_eq_of_length_le (h h1), list_set_getD_self]
  · exact List.set_eq_of_length_le h1

lemma setTile_getTile_self (b : Board) (p : Nat × Nat) :
    setTile b p (getTile b p) = b := by
  unfold setTile getTile
  rw [list_set_getD_self, list_set_getD_self]

lemma length_setTile (b : Board) (p : Nat × Nat) (t : Tile) :
    (setTile b p t).length = b.length := by
  unfold setTile; simp

lemma rowLength_setTile (b : Board) (p : Nat × Nat) (t : Tile) (i : Nat) :
    ((setTile b p t).getD i []).length = (b.getD i []).length := by
  unfold setTile
  rcases eq_or_ne p.1 i with h | h
  · subst h
    rcases Nat.lt_or_ge p.1 b.length with h1 | h1
    · rw [list_getD_set_self _ _ h1]; simp
    · rw [List.set_eq_of_length_le h1]
  · rw [list_getD_set_ne _ _ _ h]

lemma inRange_setTile (b : Board) (p q : Nat × Nat) (t : Tile) :
    InRange (setTile b p t) q ↔ InRange b q := by
  unfold InRange
  rw [length_setTile, rowLength_setTile]

lemma getTile_setTile_ne (b : Board) (p q : Nat × Nat) (t : Tile) (h : q ≠ p) :
    getTile (setTile b p t) q = getTile b q := by
  obtain ⟨p1, p2⟩ := p
  obtain ⟨q1, q2⟩ := q
  unfold getTile setTile
  simp only
  rcases eq_or_ne p1 q1 with h1 | h1
  · subst h1
    have h2 : p2 ≠ q2 := fun h2 => h (by simp [h2])
    rcases Nat.lt_or_ge p1 b.length with hlt | hge
    · rw [list_getD_set_self _ _ hlt, list_getD_set_ne _ _ _ h2]
    · rw [List.set_eq_of_length_le hge]
  · rw [list_getD_set_ne _ _ _ h1]

lemma getTile_setTile_self (b : Board) (p : Nat × Nat) (t : Tile)
    (h : InRange b p) : getTile (setTile b p t) p = t := by
  obtain ⟨h1, h2⟩ := h
  unfold getTile setTile
  rw [list_getD_set_self _ _ h1, list_getD_set_self _ _ h2]

lemma getTile_mem (b : Board) (p : Nat × Nat) (h : InRange b p) :
    ∃ row ∈ b, getTile b p ∈ row := by
  obtain ⟨h1, h2⟩ := h
  refine ⟨b.getD p.1 [], ?_, ?_⟩
  · rw [List.getD_eq_getElem _ _ h1]
    exact List.getElem_mem h1
  · unfold getTile
    rw [List.getD_eq_getElem _ _ h2]
    exact List.getElem_mem h2

lemma wfTile_dummy : WfTile dummyTile := by
  constructor
  · simp [dummyTile]
  · left; rfl

lemma wf_getTile (b : Board) (hb : WfBoard b) (p : Nat × Nat) :
    WfTile (getTile b p) := by
  by_cases h : InRange b p
  · obtain ⟨row, hrow, ht⟩ := getTile_mem b p h
    exact hb row hrow _ ht
  · rw [getTile_oob b p h]; exact wfTile_dummy

lemma wf_setTile (b : Board) (p : Nat × Nat) (t : Tile)
    (hb : WfBoard b) (ht : WfTile t) : WfBoard (setTile b p t) := by
  intro row hrow u hu
  unfold setTile at hrow
  rcases List.mem_or_eq_of_mem_set hrow with hrow | hrow
  · exact hb row hrow u hu
  · subst hrow
    rcases List.mem_or_eq_of_mem_set hu with hu | hu
    · rcases Nat.lt_or_ge p.1 b.length with hlt | hge
      · refine hb (b.getD p.1 []) ?_ u hu
        rw [List.getD_eq_getElem _ _ hlt]
        exact List.getElem_mem hlt
      · rw [List.getD_eq_default _ _ hge] at hu
        simp at hu
    · subst hu; exact ht

lemma totalCandidates_setTile (b : Board) (p : Nat × Nat) (t : Tile)
    (h : InRange b p) :
    totalCandidates (setTile b p t) + (getTile b p).candidates.card
      = totalCandidates b + t.candidates.card := by
  obtain ⟨h1, h2⟩ := h
  unfold totalCandidates setTile getTile
  rw [List.map_set, List.map_set]
  have hlen2 : p.2 < ((b.getD p.1 []).map fun u => u.candidates.card).length := by
    simpa using h2
  have hlen1 : p.1 < (b.map fun row => (row.map fun u => u.candidates.card).sum).length := by
    simpa using h1
  have e1 : (((b.getD p.1 []).map fun u => u.candidates.card)).getD p.2 0
      = ((b.getD p.1 []).getD p.2 dummyTile).candidates.card := by
    rw [List.getD_eq_getElem _ _ hlen2, List.getD_eq_getElem _ _ h2, List.getElem_map]
  have e2 : (b.map fun row => (row.map fun u => u.candidates.card).sum).getD p.1 0
      = ((b.getD p.1 []).map fun u => u.candidates.card).sum := by
    rw [List.getD_eq_getElem _ _ hlen1, List.getD_eq_getElem _ _ h1, List.getElem_map]
  have s1 := list_sum_set ((b.getD p.1 []).map fun u => u.candidates.card) p.2
      t.candidates.card hlen2
  have s2 := list_sum_set (b.map fun row => (row.map fun u => u.candidates.card).sum) p.1
      ((((b.getD p.1 []).map fun u => u.candidates.card)).set p.2 t.candidates.card).sum hlen1
  rw [e1] at s1
  rw [e2] at s2
  omega

lemma set_value_wf (t : Tile) (v : Char) : WfTile (Tile.set_value t v) := by
  unfold Tile.set_value WfTile
  split
  · next h =>
    refine ⟨?_, Or.inr h⟩
    simpa [Finset.singleton_subset_iff] using h
  · exact ⟨Finset.Subset.refl _, Or.inl rfl⟩

lemma set_value_of_mem (t : Tile) (v : Char) (h : v ∈ CHOICES) :
    Tile.set_value t v = { t with value := v, candidates := {v} } := by
  unfold Tile.set_value
  rw [if_pos h]

lemma set_value_of_not_mem (t : Tile) (v : Char) (h : v ∉ CHOICES) :
    Tile.set_value t v = { t with value := UNKNOWN, candidates := CHOICES.toFinset } := by
  unfold Tile.set_value
  rw [if_neg h]

lemma rc_of_eq (t : Tile) (used : Finset Char)
    (h : t.candidates \ used = t.candidates) :
    Tile.remove_candidates t used = (t, false) := by
  unfold Tile.remove_candidates
  rw [if_pos h]

lemma rc_snd_true (t : Tile) (used : Finset Char)
    (h : t.candidates \ used ≠ t.candidates) :
    (Tile.remove_candidates t used).2 = true := by
  unfold Tile.remove_candidates
  rw [if_neg h]
  split <;> rfl

lemma rc_ne_of_snd_true (t : Tile) (used : Finset Char)
    (h : (Tile.remove_candidates t used).2 = true) :
    t.candidates \ used ≠ t.candidates := by
  intro hc
  rw [rc_of_eq t used hc] at h
  simp at h

lemma rc_eq_of_snd_false (t : Tile) (used : Finset Char)
    (h : (Tile.remove_candidates t used).2 = false) :
    Tile.remove_candidates t used = (t, false) := by
  by_cases hc : t.candidates \ used = t.candidates
  · exact rc_of_eq t used hc
  · rw [rc_snd_true t used hc] at h
    simp at h

lemma rc_nonempty_of_snd_true (t : Tile) (used : Finset Char)
    (h : (Tile.remove_candidates t used).2 = true) :
    t.candidates ≠ ∅ := by
  intro he
  exact rc_ne_of_snd_true t used h (by rw [he]; simp)

lemma rc_card_lt (t : Tile) (used : Finset Char)
    (hsub : t.candidates ⊆ CHOICES.toFinset)
    (h : (Tile.remove_candidates t used).2 = true) :
    (Tile.remove_candidates t used).1.candidates.card < t.candidates.card := by
  have hc := rc_ne_of_snd_true t used h
  have hss : t.candidates \ used ⊂ t.candidates :=
    (Finset.sdiff_subset).ssubset_of_ne hc
  have hlt := Finset.card_lt_card hss
  unfold Tile.remove_candidates
  rw [if_neg hc]
  split
  · next h1 =>
    have hv : (t.candidates \ used).min'
        (Finset.card_pos.mp (by omega)) ∈ CHOICES := by
      have hm := Finset.min'_mem (t.candidates \ used)
        (Finset.card_pos.mp (by omega))
      have : (t.candidates \ used).min' (Finset.card_pos.mp (by omega))
          ∈ t.candidates := Finset.sdiff_subset hm
      simpa [List.mem_toFinset] using hsub this
    rw [set_value_of_mem _ _ hv]
    simpa using h1 ▸ hlt
  · exact hlt

lemma rc_wf (t : Tile) (used : Finset Char) (h : WfTile t) :
    WfTile (Tile.remove_candidates t used).1 := by
  unfold Tile.remove_candidates
  split
  · exact h
  · split
    · exact set_value_wf _ _
    · exact ⟨(Finset.sdiff_subset).trans h.1, h.2⟩

lemma rc_cand_subset (t : Tile) (used : Finset Char)
    (h : t.candidates ⊆ CHOICES.toFinset) :
    (Tile.remove_candidates t used).1.candidates ⊆ CHOICES.toFinset := by
  unfold Tile.remove_candidates
  split
  · exact h
  · split
    · next h1 =>
      have hm := Finset.min'_mem (t.candidates \ used)
        (Finset.card_pos.mp (by omega))
      have hv : (t.candidates \ used).min' (Finset.card_pos.mp (by omega))
          ∈ CHOICES := by
        simpa [List.mem_toFinset] using h (Finset.sdiff_subset hm)
      rw [set_value_of_mem _ _ hv]
      simpa [Finset.singleton_subset_iff, List.mem_toFinset] using hv
    · exact (Finset.sdiff_subset).trans h

lemma rc_singleton (t : Tile) (used : Finset Char) (v : Char)
    (hv : v ∈ CHOICES) (hone : t.candidates \ used = {v})
    (hne : t.candidates \ used ≠ t.candidates) :
    Tile.remove_candidates t used
      = ({ t with value := v, candidates := {v} }, true) := by
  unfold Tile.remove_candidates
  rw [if_neg hne]
  have hcard : (t.candidates \ used).card = 1 := by rw [hone]; simp
  rw [dif_pos hcard]
  have hmin : (t.candidates \ used).min' (Finset.card_pos.mp (by omega)) = v := by
    have hmem := Finset.min'_mem (t.candidates \ used) (Finset.card_pos.mp (by omega))
    have : (t.candidates \ used).min' (Finset.card_pos.mp (by omega))
        ∈ ({v} : Finset Char) := by
      rw [← hone]; exact hmem
    simpa using this
  rw [hmin, set_value_of_mem _ _ hv]

lemma nsStep_count_le (used : Finset Char) (acc : Board × Nat) (p : Nat × Nat) :
    acc.2 ≤ (nsStep used acc p).2 := by
  unfold nsStep
  split
  · simp only
    split <;> omega
  · exact Nat.le_refl _

lemma nsStep_wf (used : Finset Char) (acc : Board × Nat) (p : Nat × Nat)
    (h : WfBoard acc.1) : WfBoard (nsStep used acc p).1 := by
  unfold nsStep
  split
  · exact wf_setTile _ _ _ h (rc_wf _ _ (wf_getTile _ h p))
  · exact h

lemma nsStep_eq_of_count_eq (used : Finset Char) (acc : Board × Nat)
    (p : Nat × Nat) (h : (nsStep used acc p).2 = acc.2) :
    nsStep used acc p = acc := by
  obtain ⟨b0, n0⟩ := acc
  unfold nsStep at h ⊢
  split at h
  · next hcond =>
    rw [if_pos hcond]
    by_cases hr : (Tile.remove_candidates (getTile b0 p) used).2 = true
    · rw [if_pos hr] at h
      simp at h
    · have hfalse : (Tile.remove_candidates (getTile b0 p) used).2 = false := by
        simpa using hr
      have heq := rc_eq_of_snd_false _ _ hfalse
      rw [if_neg hr, heq]
      simp [setTile_getTile_self]
  · next hcond => rw [if_neg hcond]

lemma nsStep_tc_lt_of_true (used : Finset Char) (b : Board) (p : Nat × Nat)
    (h : WfBoard b) (hr : (Tile.remove_candidates (getTile b p) used).2 = true) :
    totalCandidates (setTile b p (Tile.remove_candidates (getTile b p) used).1)
      < totalCandidates b := by
  have hir : InRange b p := by
    by_contra hno
    have hne := rc_nonempty_of_snd_true _ _ hr
    rw [getTile_oob b p hno] at hne
    exact hne rfl
  have heq := totalCandidates_setTile b p
    (Tile.remove_candidates (getTile b p) used).1 hir
  have hlt := rc_card_lt (getTile b p) used (wf_getTile b h p).1 hr
  omega

lemma nsStep_tc_le (used : Finset Char) (acc : Board × Nat) (p : Nat × Nat)
    (h : WfBoard acc.1) :
    totalCandidates (nsStep used acc p).1 ≤ totalCandidates acc.1 := by
  unfold nsStep
  split
  · by_cases hr : (Tile.remove_candidates (getTile acc.1 p) used).2 = true
    · exact Nat.le_of_lt (nsStep_tc_lt_of_true used acc.1 p h hr)
    · have hfalse : (Tile.remove_candidates (getTile acc.1 p) used).2 = false := by
        simpa using hr
      have heq := rc_eq_of_snd_false _ _ hfalse
      rw [heq]
      simp [setTile_getTile_self]
  · exact Nat.le_refl _

lemma nsStep_tc_lt (used : Finset Char) (acc : Board × Nat) (p : Nat × Nat)
    (h : WfBoard acc.1) (hgt : acc.2 < (nsStep used acc p).2) :
    totalCandidates (nsStep used acc p).1 < totalCandidates acc.1 := by
  unfold nsStep at hgt ⊢
  split at hgt
  · next hcond =>
    rw [if_pos hcond]
    by_cases hr : (Tile.remove_candidates (getTile acc.1 p) used).2 = true
    · exact nsStep_tc_lt_of_true used acc.1 p h hr
    · rw [if_neg hr] at hgt
      simp at hgt
  · omega

lemma nsStep_frame (used : Finset Char) (acc : Board × Nat) (p q : Nat × Nat)
    (hq : (getTile acc.1 q).value ≠ UNKNOWN) :
    getTile (nsStep used acc p).1 q = getTile acc.1 q := by
  unfold nsStep
  split
  · next hcond =>
    have hne : q ≠ p := by
      intro he
      rw [he] at hq
      exact hq hcond.1
    exact getTile_setTile_ne _ _ _ _ hne
  · rfl

lemma foldl_nsStep_count_le (used : Finset Char) (g : List (Nat × Nat)) :
    ∀ acc : Board × Nat, acc.2 ≤ (g.foldl (nsStep used) acc).2 := by
  induction g with
  | nil => intro acc; exact Nat.le_refl _
  | cons p g ih =>
    intro acc
    exact Nat.le_trans (nsStep_count_le used acc p) (ih (nsStep used acc p))

lemma foldl_nsStep_wf (used : Finset Char) (g : List (Nat × Nat)) :
    ∀ acc : Board × Nat, WfBoard acc.1 → WfBoard ((g.foldl (nsStep used) acc)).1 := by
  induction g with
  | nil => intro acc h; exact h
  | cons p g ih =>
    intro acc h
    exact ih (nsStep used acc p) (nsStep_wf used acc p h)

lemma foldl_nsStep_tc_le (used : Finset Char) (g : List (Nat × Nat)) :
    ∀ acc : Board × Nat, WfBoard acc.1 →
      totalCandidates ((g.foldl (nsStep used) acc)).1 ≤ totalCandidates acc.1 := by
  induction g with
  | nil => intro acc _; exact Nat.le_refl _
  | cons p g ih =>
    intro acc h
    exact Nat.le_trans (ih (nsStep used acc p) (nsStep_wf used acc p h))
      (nsStep_tc_le used acc p h)

lemma foldl_nsStep_eq_of_count_eq (used : Finset Char) (g : List (Nat × Nat)) :
    ∀ acc : Board × Nat, (g.foldl (nsStep used) acc).2 = acc.2 →
      g.foldl (nsStep used) acc = acc := by
  induction g with
  | nil => intro acc _; rfl
  | cons p g ih =>
    intro acc h
    rw [List.foldl_cons] at h ⊢
    have h1 := nsStep_count_le used acc p
    have h2 := foldl_nsStep_count_le used g (nsStep used acc p)
    have hstep : nsStep used acc p = acc :=
      nsStep_eq_of_count_eq used acc p (by omega)
    rw [hstep] at h ⊢
    exact ih acc h

lemma foldl_nsStep_tc_lt (used : Finset Char) (g : List (Nat × Nat)) :
    ∀ acc : Board × Nat, WfBoard acc.1 → acc.2 < (g.foldl (nsStep used) acc).2 →
      totalCandidates ((g.foldl (nsStep used) acc)).1 < totalCandidates acc.1 := by
  induction g with
  | nil => intro acc _ h; simp at h
  | cons p g ih =>
    intro acc hwf h
    rw [List.foldl_cons] at h ⊢
    rcases Nat.lt_or_ge acc.2 (nsStep used acc p).2 with hlt | hge
    · have h1 := nsStep_tc_lt used acc p hwf hlt
      have h2 := foldl_nsStep_tc_le used g (nsStep used acc p)
        (nsStep_wf used acc p hwf)
      omega
    · have heq : (nsStep used acc p).2 = acc.2 :=
        Nat.le_antisymm hge (nsStep_count_le used acc p)
      have hstep := nsStep_eq_of_count_eq used acc p heq
      rw [hstep] at h ⊢
      exact ih acc hwf h

lemma foldl_nsStep_frame (used : Finset Char) (g : List (Nat × Nat)) (b0 : Board) :
    ∀ acc : Board × Nat,
      (∀ q, (getTile b0 q).value ≠ UNKNOWN → getTile acc.1 q = getTile b0 q) →
      ∀ q, (getTile b0 q).value ≠ UNKNOWN →
        getTile ((g.foldl (nsStep used) acc)).1 q = getTile b0 q := by
  induction g with
  | nil => intro acc h q hq; exact h q hq
  | cons p g ih =>
    intro acc h q hq
    rw [List.foldl_cons]
    refine ih (nsStep used acc p) ?_ q hq
    intro q' hq'
    have hcur := h q' hq'
    have : (getTile acc.1 q').value ≠ UNKNOWN := by rw [hcur]; exact hq'
    rw [nsStep_frame used acc p q' this]
    exact hcur

lemma nsg_count_le (acc : Board × Nat) (g : List (Nat × Nat)) :
    acc.2 ≤ (nakedSingleGroup acc g).2 :=
  foldl_nsStep_count_le _ g acc

lemma nsg_wf (acc : Board × Nat) (g : List (Nat × Nat)) (h : WfBoard acc.1) :
    WfBoard (nakedSingleGroup acc g).1 :=
  foldl_nsStep_wf _ g acc h

lemma nsg_tc_le (acc : Board × Nat) (g : List (Nat × Nat)) (h : WfBoard acc.1) :
    totalCandidates (nakedSingleGroup acc g).1 ≤ totalCandidates acc.1 :=
  foldl_nsStep_tc_le _ g acc h

lemma nsg_eq_of_count_eq (acc : Board × Nat) (g : List (Nat × Nat))
    (h : (nakedSingleGroup acc g).2 = acc.2) : nakedSingleGroup acc g = acc :=
  foldl_nsStep_eq_of_count_eq _ g acc h

lemma nsg_tc_lt (acc : Board × Nat) (g : List (Nat × Nat)) (h : WfBoard acc.1)
    (hgt : acc.2 < (nakedSingleGroup acc g).2) :
    totalCandidates (nakedSingleGroup acc g).1 < totalCandidates acc.1 :=
  foldl_nsStep_tc_lt _ g acc h hgt

lemma nsg_frame (acc : Board × Nat) (g : List (Nat × Nat)) (b0 : Board)
    (h : ∀ q, (getTile b0 q).value ≠ UNKNOWN → getTile acc.1 q = getTile b0 q) :
    ∀ q, (getTile b0 q).value ≠ UNKNOWN →
      getTile (nakedSingleGroup acc g).1 q = getTile b0 q :=
  foldl_nsStep_frame _ g b0 acc h

lemma foldl_nsg_count_le (gs : List (List (Nat × Nat))) :
    ∀ acc : Board × Nat, acc.2 ≤ (gs.foldl nakedSingleGroup acc).2 := by
  induction gs with
  | nil => intro acc; exact Nat.le_refl _
  | cons g gs ih =>
    intro acc
    exact Nat.le_trans (nsg_count_le acc g) (ih (nakedSingleGroup acc g))

lemma foldl_nsg_wf (gs : List (List (Nat × Nat))) :
    ∀ acc : Board × Nat, WfBoard acc.1 → WfBoard ((gs.foldl nakedSingleGroup acc)).1 := by
  induction gs with
  | nil => intro acc h; exact h
  | cons g gs ih =>
    intro acc h
    exact ih (nakedSingleGroup acc g) (nsg_wf acc g h)

lemma foldl_nsg_tc_le (gs : List (List (Nat × Nat))) :
    ∀ acc : Board × Nat, WfBoard acc.1 →
      totalCandidates ((gs.foldl nakedSingleGroup acc)).1 ≤ totalCandidates acc.1 := by
  induction gs with
  | nil => intro acc _; exact Nat.le_refl _
  | cons g gs ih =>
    intro acc h
    exact Nat.le_trans (ih (nakedSingleGroup acc g) (nsg_wf acc g h))
      (nsg_tc_le acc g h)

lemma foldl_nsg_eq_of_count_eq (gs : List (List (Nat × Nat))) :
    ∀ acc : Board × Nat, (gs.foldl nakedSingleGroup acc).2 = acc.2 →
      gs.foldl nakedSingleGroup acc = acc := by
  induction gs with
  | nil => intro acc _; rfl
  | cons g gs ih =>
    intro acc h
    rw [List.foldl_cons] at h ⊢
    have h1 := nsg_count_le acc g
    have h2 := foldl_nsg_count_le gs (nakedSingleGroup acc g)
    have hstep : nakedSingleGroup acc g = acc :=
      nsg_eq_of_count_eq acc g (by omega)
    rw [hstep] at h ⊢
    exact ih acc h

lemma foldl_nsg_tc_lt (gs : List (List (Nat × Nat))) :
    ∀ acc : Board × Nat, WfBoard acc.1 → acc.2 < (gs.foldl nakedSingleGroup acc).2 →
      totalCandidates ((gs.foldl nakedSingleGroup acc)).1 < totalCandidates acc.1 := by
  induction gs with
  | nil => intro acc _ h; simp at h
  | cons g gs ih =>
    intro acc hwf h
    rw [List.foldl_cons] at h ⊢
    rcases Nat.lt_or_ge acc.2 (nakedSingleGroup acc g).2 with hlt | hge
    · have h1 := nsg_tc_lt acc g hwf hlt
      have h2 := foldl_nsg_tc_le gs (nakedSingleGroup acc g) (nsg_wf acc g hwf)
      omega
    · have heq : (nakedSingleGroup acc g).2 = acc.2 :=
        Nat.le_antisymm hge (nsg_count_le acc g)
      have hstep := nsg_eq_of_count_eq acc g heq
      rw [hstep] at h ⊢
      exact ih acc hwf h

lemma foldl_nsg_frame (gs : List (List (Nat × Nat))) (b0 : Board) :
    ∀ acc : Board × Nat,
      (∀ q, (getTile b0 q).value ≠ UNKNOWN → getTile acc.1 q = getTile b0 q) →
      ∀ q, (getTile b0 q).value ≠ UNKNOWN →
        getTile ((gs.foldl nakedSingleGroup acc)).1 q = getTile b0 q := by
  induction gs with
  | nil => intro acc h q hq; exact h q hq
  | cons g gs ih =>
    intro acc h q hq
    rw [List.foldl_cons]
    exact ih (nakedSingleGroup acc g) (nsg_frame acc g b0 h) q hq

lemma naked_single_def (b : Board) :
    naked_single b = ((groups.foldl nakedSingleGroup (b, 0)).1,
      decide (0 < (groups.foldl nakedSingleGroup (b, 0)).2)) := by
  unfold naked_single
  rfl

lemma naked_single_fst (b : Board) :
    (naked_single b).1 = (groups.foldl nakedSingleGroup (b, 0)).1 := by
  rw [naked_single_def]

lemma naked_single_snd (b : Board) :
    (naked_single b).2 = decide (0 < (groups.foldl nakedSingleGroup (b, 0)).2) := by
  rw [naked_single_def]

lemma naked_single_wf (b : Board) (h : WfBoard b) :
    WfBoard (naked_single b).1 := by
  rw [naked_single_fst]
  exact foldl_nsg_wf groups (b, 0) h

lemma naked_single_tc_le (b : Board) (h : WfBoard b) :
    totalCandidates (naked_single b).1 ≤ totalCandidates b := by
  rw [naked_single_fst]
  exact foldl_nsg_tc_le groups (b, 0) h

lemma naked_single_eq_of_false (b : Board) (h : (naked_single b).2 = false) :
    (naked_single b).1 = b := by
  rw [naked_single_snd] at h
  simp only [decide_eq_false_iff_not, Nat.not_lt, Nat.le_zero] at h
  rw [naked_single_fst]
  have := foldl_nsg_eq_of_count_eq groups (b, 0) h
  rw [this]

lemma naked_single_tc_lt (b : Board) (h : WfBoard b)
    (htrue : (naked_single b).2 = true) :
    totalCandidates (naked_single b).1 < totalCandidates b := by
  rw [naked_single_snd] at htrue
  simp only [decide_eq_true_eq] at htrue
  rw [naked_single_fst]
  exact foldl_nsg_tc_lt groups (b, 0) h htrue

lemma naked_single_frame (b : Board) (q : Nat × Nat)
    (hq : (getTile b q).value ≠ UNKNOWN) :
    getTile (naked_single b).1 q = getTile b q := by
  rw [naked_single_fst]
  exact foldl_nsg_frame groups b (b, 0) (fun _ _ => rfl) q hq

lemma groupUsedValues_empty (b : Board) (hb : ∀ p, (getTile b p).value ∉ CHOICES)
    (g : List (Nat × Nat)) : groupUsedValues b g = ∅ := by
  unfold groupUsedValues
  have : ∀ (l : List (Nat × Nat)) (s : Finset Char),
      l.foldl (fun used p =>
        if (getTile b p).value ∈ CHOICES then insert (getTile b p).value used
        else used) s = s := by
    intro l
    induction l with
    | nil => intro s; rfl
    | cons p l ih =>
      intro s
      rw [List.foldl_cons, if_neg (hb p)]
      exact ih s
  exact this g ∅

lemma naked_single_all_unset (b : Board)
    (hb : ∀ p, (getTile b p).value ∉ CHOICES) :
    naked_single b = (b, false) := by
  have hstep : ∀ (g : List (Nat × Nat)) (n : Nat),
      nakedSingleGroup (b, n) g = (b, n) := by
    intro g n
    unfold nakedSingleGroup
    rw [groupUsedValues_empty b hb g]
    induction g with
    | nil => rfl
    | cons p g ih =>
      rw [List.foldl_cons]
      have : nsStep ∅ (b, n) p = (b, n) := by
        unfold nsStep
        rw [if_neg]
        simp
      rw [this]
      exact ih
  have hfold : ∀ gs : List (List (Nat × Nat)),
      gs.foldl nakedSingleGroup (b, 0) = (b, 0) := by
    intro gs
    induction gs with
    | nil => rfl
    | cons g gs ih =>
      rw [List.foldl_cons, hstep g 0]
      exact ih
  unfold naked_single
  rw [hfold groups]
  rfl

lemma solveLoop_succ (fuel : Nat) (b : Board) :
    solveLoop (fuel + 1) b
      = if (naked_single b).2 then solveLoop fuel (naked_single b).1
        else (naked_single b).1 := by
  rfl

lemma solveLoop_no_progress (fuel : Nat) (b : Board) (h : WfBoard b)
    (hfuel : totalCandidates b < fuel) :
    (naked_single (solveLoop fuel b)).2 = false ∧ WfBoard (solveLoop fuel b) := by
  induction fuel generalizing b with
  | zero => omega
  | succ n ih =>
    rw [solveLoop_succ]
    by_cases hr : (naked_single b).2 = true
    · rw [if_pos hr]
      have hlt := naked_single_tc_lt b h hr
      exact ih (naked_single b).1 (naked_single_wf b h) (by omega)
    · have hfalse : (naked_single b).2 = false := by simpa using hr
      rw [if_neg (by simp [hfalse])]
      rw [naked_single_eq_of_false b hfalse]
      exact ⟨hfalse, h⟩

lemma solveLoop_fuel_stable (k fuel : Nat) :
    ∀ b : Board, WfBoard b → totalCandidates b < fuel →
      solveLoop (fuel + k) b = solveLoop fuel b := by
  induction fuel with
  | zero => intro b _ h; omega
  | succ n ih =>
    intro b hwf hfuel
    have hsum : n + 1 + k = (n + k) + 1 := by omega
    rw [hsum, solveLoop_succ, solveLoop_succ]
    by_cases hr : (naked_single b).2 = true
    · rw [if_pos hr, if_pos hr]
      have hlt := naked_single_tc_lt b hwf hr
      exact ih (naked_single b).1 (naked_single_wf b hwf) (by omega)
    · rw [if_neg (by simp [hr]), if_neg (by simp [hr])]

lemma emptyBoard_length : emptyBoard.length = NROWS := by
  unfold emptyBoard
  simp

lemma emptyBoard_row (r : Nat) (h : r < NROWS) :
    emptyBoard.getD r []
      = (List.range NCOLS).map fun c => (⟨r, c, UNKNOWN, CHOICES.toFinset⟩ : Tile) := by
  unfold emptyBoard
  rw [List.getD_eq_getElem _ _ (by simpa using h)]
  simp

lemma getTile_emptyBoard (p : Nat × Nat) (h1 : p.1 < NROWS) (h2 : p.2 < NCOLS) :
    getTile emptyBoard p = ⟨p.1, p.2, UNKNOWN, CHOICES.toFinset⟩ := by
  unfold getTile
  rw [emptyBoard_row p.1 h1]
  rw [List.getD_eq_getElem _ _ (by simpa using h2)]
  simp

lemma getTile_emptyBoard_value (p : Nat × Nat) :
    (getTile emptyBoard p).value = UNKNOWN := by
  by_cases h1 : p.1 < NROWS
  · by_cases h2 : p.2 < NCOLS
    · rw [getTile_emptyBoard p h1 h2]
    · have : ¬ InRange emptyBoard p := by
        unfold InRange
        rw [emptyBoard_row p.1 h1]
        simp only [List.length_map, List.length_range]
        omega
      rw [getTile_oob _ _ this]
      rfl
  · have : ¬ InRange emptyBoard p := by
      unfold InRange
      rw [emptyBoard_length]
      omega
    rw [getTile_oob _ _ this]
    rfl

lemma wf_emptyBoard : WfBoard emptyBoard := by
  intro row hrow t ht
  unfold emptyBoard at hrow
  obtain ⟨r, _, hr⟩ := List.mem_map.mp hrow
  subst hr
  obtain ⟨c, _, hc⟩ := List.mem_map.mp ht
  subst hc
  exact ⟨Finset.Subset.refl _, Or.inl rfl⟩

lemma naked_single_emptyBoard : naked_single emptyBoard = (emptyBoard, false) :=
  naked_single_all_unset emptyBoard fun p => by
    rw [getTile_emptyBoard_value p]
    exact unknown_not_mem_choices

lemma dupStep_not_mem (st : Finset Char × Bool) (v : Char) (h : v ∉ CHOICES) :
    dupStep st v = st := by
  unfold dupStep
  rw [if_neg h]

lemma dupStep_seen (st : Finset Char × Bool) (v : Char) (h : v ∈ CHOICES)
    (hs : v ∈ st.1) : dupStep st v = (st.1, true) := by
  unfold dupStep
  rw [if_pos h, if_pos hs]

lemma dupStep_fresh (st : Finset Char × Bool) (v : Char) (h : v ∈ CHOICES)
    (hs : v ∉ st.1) : dupStep st v = (insert v st.1, st.2) := by
  unfold dupStep
  rw [if_pos h, if_neg hs]

lemma dupFold_spec (b : Board) (g : List (Nat × Nat)) :
    ∀ (s : Finset Char) (fl : Bool),
      ((g.foldl (fun st p => dupStep st (getTile b p).value) (s, fl)).2 = true)
        ↔ (fl = true
            ∨ (∃ p ∈ g, (getTile b p).value ∈ CHOICES ∧ (getTile b p).value ∈ s)
            ∨ (∃ v ∈ CHOICES, 2 ≤ ((g.map fun p => (getTile b p).value).count v))) := by
  induction g with
  | nil =>
    intro s fl
    simp
  | cons a g ih =>
    intro s fl
    rw [List.foldl_cons]
    by_cases ha : (getTile b a).value ∈ CHOICES
    · by_cases hs : (getTile b a).value ∈ s
      · rw [dupStep_seen _ _ ha hs, ih]
        constructor
        · intro _
          exact Or.inr (Or.inl ⟨a, List.mem_cons_self a g, ha, hs⟩)
        · intro _
          exact Or.inl rfl
      · rw [dupStep_fresh _ _ ha hs, ih]
        constructor
        · rintro (hfl | ⟨p, hp, hpc, hpm⟩ | ⟨v, hv, hcount⟩)
          · exact Or.inl hfl
          · rcases Finset.mem_insert.mp hpm with heq | hpm'
            · refine Or.inr (Or.inr ⟨(getTile b p).value, hpc, ?_⟩)
              have hmem : (getTile b p).value ∈ g.map fun q => (getTile b q).value :=
                List.mem_map.mpr ⟨p, hp, rfl⟩
              have h1 : 1 ≤ ((g.map fun q => (getTile b q).value).count
                  (getTile b p).value) := List.one_le_count_iff.mpr hmem
              rw [heq] at h1 ⊢
              simp only [List.map_cons]
              rw [List.count_cons_self]
              omega
            · exact Or.inr (Or.inl ⟨p, List.mem_cons_of_mem a hp, hpc, hpm'⟩)
          · refine Or.inr (Or.inr ⟨v, hv, ?_⟩)
            simp only [List.map_cons]
            exact Nat.le_trans hcount (List.count_le_count_cons v _ _)
        · rintro (hfl | ⟨p, hp, hpc, hpm⟩ | ⟨v, hv, hcount⟩)
          · exact Or.inl hfl
          · rcases List.mem_cons.mp hp with heq | hp'
            · subst heq
              exact absurd hpm hs
            · exact Or.inr (Or.inl ⟨p, hp', hpc,
                Finset.mem_insert_of_mem hpm⟩)
          · simp only [List.map_cons] at hcount
            by_cases hva : (getTile b a).value = v
            · have h1 : 1 ≤ ((g.map fun q => (getTile b q).value).count v) := by
                rw [hva, List.count_cons_self] at hcount
                omega
              have hmem := List.one_le_count_iff.mp h1
              obtain ⟨p, hp, hpv⟩ := List.mem_map.mp hmem
              exact Or.inr (Or.inl ⟨p, hp, hpv ▸ hv, by
                rw [hpv, ← hva]
                exact Finset.mem_insert_self _ _⟩)
            · rw [List.count_cons_of_ne (fun he => hva he.symm)] at hcount
              exact Or.inr (Or.inr ⟨v, hv, hcount⟩)
    · rw [dupStep_not_mem _ _ ha, ih]
      constructor
      · rintro (hfl | ⟨p, hp, hpc, hpm⟩ | ⟨v, hv, hcount⟩)
        · exact Or.inl hfl
        · exact Or.inr (Or.inl ⟨p, List.mem_cons_of_mem a hp, hpc, hpm⟩)
        · refine Or.inr (Or.inr ⟨v, hv, ?_⟩)
          simp only [List.map_cons]
          exact Nat.le_trans hcount (List.count_le_count_cons v _ _)
      · rintro (hfl | ⟨p, hp, hpc, hpm⟩ | ⟨v, hv, hcount⟩)
        · exact Or.inl hfl
        · rcases List.mem_cons.mp hp with heq | hp'
          · subst heq
            exact absurd hpc ha
          · exact Or.inr (Or.inl ⟨p, hp', hpc, hpm⟩)
        · simp only [List.map_cons] at hcount
          have hne : (getTile b a).value ≠ v := fun he => ha (he ▸ hv)
          rw [List.count_cons_of_ne (fun he => hne he.symm)] at hcount
          exact Or.inr (Or.inr ⟨v, hv, hcount⟩)

lemma groupDuplicate_spec (b : Board) (g : List (Nat × Nat)) :
    groupDuplicate b g = true
      ↔ ∃ v ∈ CHOICES, 2 ≤ ((g.map fun p => (getTile b p).value).count v) := by
  unfold groupDuplicate
  rw [dupFold_spec b g ∅ false]
  simp

lemma is_consistent_false_iff (b : Board) :
    is_consistent b = false
      ↔ ∃ g ∈ groups, ∃ v ∈ CHOICES,
          2 ≤ ((g.map fun p => (getTile b p).value).count v) := by
  unfold is_consistent
  constructor
  · intro h
    have hany : (groups.any fun g => groupDuplicate b g) = true := by
      simpa using h
    obtain ⟨g, hg, hdup⟩ := List.any_eq_true.mp hany
    exact ⟨g, hg, (groupDuplicate_spec b g).mp hdup⟩
  · rintro ⟨g, hg, v, hv, hcount⟩
    have hdup : groupDuplicate b g = true :=
      (groupDuplicate_spec b g).mpr ⟨v, hv, hcount⟩
    have : (groups.any fun g => groupDuplicate b g) = true :=
      List.any_eq_true.mpr ⟨g, hg, hdup⟩
    rw [this]
    rfl

lemma inner_fold_length (vals : List (List Char)) (r : Nat) :
    ∀ (cs : List Nat) (b : Board),
      ((cs.foldl (fun acc c =>
          setTile acc (r, c)
            (Tile.set_value (getTile acc (r, c))
              ((vals.getD r []).getD c UNKNOWN))) b)).length = b.length
      ∧ ∀ i, (((cs.foldl (fun acc c =>
          setTile acc (r, c)
            (Tile.set_value (getTile acc (r, c))
              ((vals.getD r []).getD c UNKNOWN))) b)).getD i []).length
            = ((b.getD i []) : List Tile).length := by
  intro cs
  induction cs with
  | nil => intro b; exact ⟨rfl, fun _ => rfl⟩
  | cons c cs ih =>
    intro b
    rw [List.foldl_cons]
    obtain ⟨h1, h2⟩ := ih (setTile b (r, c)
      (Tile.set_value (getTile b (r, c)) ((vals.getD r []).getD c UNKNOWN)))
    refine ⟨?_, ?_⟩
    · rw [h1, length_setTile]
    · intro i
      rw [h2 i, rowLength_setTile]

lemma inner_fold_inRange (vals : List (List Char)) (r : Nat) (cs : List Nat)
    (b : Board) (p : Nat × Nat) :
    InRange (cs.foldl (fun acc c =>
        setTile acc (r, c)
          (Tile.set_value (getTile acc (r, c))
            ((vals.getD r []).getD c UNKNOWN))) b) p ↔ InRange b p := by
  obtain ⟨h1, h2⟩ := inner_fold_length vals r cs b
  unfold InRange
  rw [h1, h2]

lemma inner_fold_getTile (vals : List (List Char)) (r : Nat) :
    ∀ (cs : List Nat), cs.Nodup → ∀ (b : Board) (p : Nat × Nat),
      getTile (cs.foldl (fun acc c =>
          setTile acc (r, c)
            (Tile.set_value (getTile acc (r, c))
              ((vals.getD r []).getD c UNKNOWN))) b) p
        = if p.1 = r ∧ p.2 ∈ cs ∧ InRange b p
          then Tile.set_value (getTile b p) ((vals.getD r []).getD p.2 UNKNOWN)
          else getTile b p := by
  intro cs
  induction cs with
  | nil =>
    intro _ b p
    simp
  | cons c cs ih =>
    intro hnd b p
    obtain ⟨hc, hnd2⟩ := List.nodup_cons.mp hnd
    obtain ⟨p1, p2⟩ := p
    rw [List.foldl_cons]
    rw [ih hnd2 _ (p1, p2)]
    by_cases hp1 : p1 = r
    · subst hp1
      by_cases hp2 : p2 = c
      · subst hp2
        have hnotin : ((p1, p2) : Nat × Nat).2 ∉ cs := hc
        rw [if_neg (fun hcontra => hnotin hcontra.2.1)]
        by_cases hir : InRange b (p1, p2)
        · rw [if_pos ⟨rfl, List.mem_cons_self p2 cs, hir⟩]
          rw [getTile_setTile_self b (p1, p2) _ hir]
        · rw [if_neg (fun hcontra => hir hcontra.2.2)]
          rw [setTile_oob b (p1, p2) _ hir]
      · have hne : ((p1, p2) : Nat × Nat) ≠ (p1, c) := by
          intro he
          exact hp2 (congrArg Prod.snd he)
        rw [getTile_setTile_ne b (p1, c) (p1, p2) _ hne]
        by_cases hmem : p2 ∈ cs
        · by_cases hir : InRange b (p1, p2)
          · rw [if_pos ⟨rfl, hmem,
                (inRange_setTile b (p1, c) (p1, p2) _).mpr hir⟩,
              if_pos ⟨rfl, List.mem_cons_of_mem c hmem, hir⟩]
          · rw [if_neg (fun h =>
                hir ((inRange_setTile b (p1, c) (p1, p2) _).mp h.2.2)),
              if_neg (fun h => hir h.2.2)]
        · rw [if_neg (fun h => hmem h.2.1),
            if_neg (fun h =>
              (List.mem_cons.mp h.2.1).elim (fun he => hp2 he) hmem)]
    · have hne : ((p1, p2) : Nat × Nat) ≠ (r, c) := by
        intro he
        exact hp1 (congrArg Prod.fst he)
      rw [getTile_setTile_ne b (r, c) (p1, p2) _ hne]
      rw [if_neg (fun h => hp1 h.1), if_neg (fun h => hp1 h.1)]

lemma setTilesRow_getTile (vals : List (List Char)) (r : Nat) (b : Board)
    (p : Nat × Nat) :
    getTile (setTilesRow vals b r) p
      = if p.1 = r ∧ p.2 < NCOLS ∧ InRange b p
        then Tile.set_value (getTile b p) ((vals.getD r []).getD p.2 UNKNOWN)
        else getTile b p := by
  unfold setTilesRow
  rw [inner_fold_getTile vals r (List.range NCOLS) (List.nodup_range NCOLS) b p]
  by_cases h1 : p.1 = r
  · by_cases h2 : p.2 < NCOLS
    · by_cases h3 : InRange b p
      · rw [if_pos ⟨h1, List.mem_range.mpr h2, h3⟩, if_pos ⟨h1, h2, h3⟩]
      · rw [if_neg (fun h => h3 h.2.2), if_neg (fun h => h3 h.2.2)]
    · rw [if_neg (fun h => h2 (List.mem_range.mp h.2.1)),
        if_neg (fun h => h2 h.2.1)]
  · rw [if_neg (fun h => h1 h.1), if_neg (fun h => h1 h.1)]

lemma setTilesRow_inRange (vals : List (List Char)) (r : Nat) (b : Board)
    (p : Nat × Nat) :
    InRange (setTilesRow vals b r) p ↔ InRange b p := by
  unfold setTilesRow
  exact inner_fold_inRange vals r (List.range NCOLS) b p

lemma set_tiles_fold_getTile (vals : List (List Char)) :
    ∀ (rs : List Nat), rs.Nodup → ∀ (b : Board) (p : Nat × Nat),
      getTile (rs.foldl (setTilesRow vals) b) p
        = if p.1 ∈ rs ∧ p.2 < NCOLS ∧ InRange b p
          then Tile.set_value (getTile b p) ((vals.getD p.1 []).getD p.2 UNKNOWN)
          else getTile b p := by
  intro rs
  induction rs with
  | nil =>
    intro _ b p
    simp
  | cons r rs ih =>
    intro hnd b p
    obtain ⟨hr, hnd2⟩ := List.nodup_cons.mp hnd
    rw [List.foldl_cons]
    rw [ih hnd2 _ p]
    by_cases hp1 : p.1 = r
    · have hnotin : p.1 ∉ rs := by rw [hp1]; exact hr
      rw [if_neg (fun hcontra => hnotin hcontra.1)]
      rw [setTilesRow_getTile vals r b p]
      by_cases hrest : p.2 < NCOLS ∧ InRange b p
      · rw [if_pos ⟨hp1, hrest.1, hrest.2⟩,
          if_pos ⟨by rw [hp1]; exact List.mem_cons_self r rs, hrest.1, hrest.2⟩,
          hp1]
      · rw [if_neg (fun h => hrest ⟨h.2.1, h.2.2⟩),
          if_neg (fun h => hrest ⟨h.2.1, h.2.2⟩)]
    · have hB : getTile (setTilesRow vals b r) p = getTile b p := by
        rw [setTilesRow_getTile vals r b p, if_neg (fun h => hp1 h.1)]
      rw [hB]
      by_cases hmem : p.1 ∈ rs
      · by_cases hrest : p.2 < NCOLS ∧ InRange b p
        · rw [if_pos ⟨hmem, hrest.1,
              (setTilesRow_inRange vals r b p).mpr hrest.2⟩,
            if_pos ⟨List.mem_cons_of_mem r hmem, hrest.1, hrest.2⟩]
        · rw [if_neg (fun h => hrest
              ⟨h.2.1, (setTilesRow_inRange vals r b p).mp h.2.2⟩),
            if_neg (fun h => hrest ⟨h.2.1, h.2.2⟩)]
      · rw [if_neg (fun h => hmem h.1),
          if_neg (fun h =>
            (List.mem_cons.mp h.1).elim (fun he => hp1 he) hmem)]

lemma getTile_set_tiles (b : Board) (vals : List (List Char)) (p : Nat × Nat) :
    getTile (set_tiles b vals) p
      = if p.1 < NROWS ∧ p.2 < NCOLS ∧ InRange b p
        then Tile.set_value (getTile b p) ((vals.getD p.1 []).getD p.2 UNKNOWN)
        else getTile b p := by
  unfold set_tiles
  rw [set_tiles_fold_getTile vals (List.range NROWS) (List.nodup_range NROWS) b p]
  by_cases h1 : p.1 < NROWS
  · by_cases hrest : p.2 < NCOLS ∧ InRange b p
    · rw [if_pos ⟨List.mem_range.mpr h1, hrest.1, hrest.2⟩,
        if_pos ⟨h1, hrest.1, hrest.2⟩]
    · rw [if_neg (fun h => hrest ⟨h.2.1, h.2.2⟩),
        if_neg (fun h => hrest ⟨h.2.1, h.2.2⟩)]
  · rw [if_neg (fun h => h1 (List.mem_range.mp h.1)),
      if_neg (fun h => h1 h.1)]

lemma toRows_getD (b : Board) (p : Nat × Nat) (h1 : p.1 < b.length)
    (h2 : p.2 < (b.getD p.1 []).length) :
    (((toRows b).getD p.1 []).getD p.2 UNKNOWN) = (getTile b p).value := by
  unfold toRows getTile
  have hmap : (b.map fun row => row.map Tile.value).getD p.1 []
      = (b.getD p.1 []).map Tile.value := by
    rw [List.getD_eq_getElem _ _ (by simpa using h1),
      List.getD_eq_getElem _ _ h1, List.getElem_map]
  rw [hmap]
  rw [List.getD_eq_getElem _ _ (by simpa using h2),
    List.getD_eq_getElem _ _ h2, List.getElem_map]

lemma solve_eq (b : Board) :
    solve b = (solveLoop (totalCandidates b + 1) b, none) := by
  unfold solve
  rfl

lemma solve_fst (b : Board) :
    (solve b).1 = solveLoop (totalCandidates b + 1) b := by
  rw [solve_eq]

lemma solve_snd (b : Board) : (solve b).2 = none := by
  rw [solve_eq]

lemma emptyBoard_rowlen : ∀ row ∈ emptyBoard, row.length = NCOLS := by
  intro row hrow
  unfold emptyBoard at hrow
  obtain ⟨r, _, hr⟩ := List.mem_map.mp hrow
  subst hr
  simp

lemma inRange_emptyBoard (p : Nat × Nat) (h1 : p.1 < NROWS) (h2 : p.2 < NCOLS) :
    InRange emptyBoard p := by
  constructor
  · rw [emptyBoard_length]
    exact h1
  · rw [emptyBoard_row p.1 h1]
    simpa using h2

lemma getTile_bOne : getTile bOne (0, 0) = tileOne :=
  getTile_setTile_self emptyBoard (0, 0) tileOne
    (inRange_emptyBoard (0, 0) (by decide) (by decide))

lemma inRange_bOne (p : Nat × Nat) (h1 : p.1 < NROWS) (h2 : p.2 < NCOLS) :
    InRange bOne p :=
  (inRange_setTile emptyBoard (0, 0) p tileOne).mpr (inRange_emptyBoard p h1 h2)

lemma getTile_bCex_01 : getTile bCex (0, 1) = tilePruned :=
  getTile_setTile_self bOne (0, 1) tilePruned
    (inRange_bOne (0, 1) (by decide) (by decide))

lemma inRange_bCex (p : Nat × Nat) (h1 : p.1 < NROWS) (h2 : p.2 < NCOLS) :
    InRange bCex p :=
  (inRange_setTile bOne (0, 1) p tilePruned).mpr (inRange_bOne p h1 h2)

/-- C1 (counterexample): the claim says `solve()` returns a boolean on every
call, true on success and false otherwise; on the empty board (not complete,
so the claim demands the boolean `false`) the code's `solve` falls off the
end with a bare `return` and yields the Python value `None` (`none`),
neither `true` nor `false`. -/
theorem C1_solve_counterexample :
    (solve emptyBoard).2 ≠ some true ∧ (solve emptyBoard).2 ≠ some false := by
  rw [solve_snd]
  exact ⟨fun h => Option.noConfusion h, fun h => Option.noConfusion h⟩

/-- C1 (amended): on every well-formed grid state, `Board.solve` runs the
`naked_single` propagation loop to a pass that reports no progress, leaves
that propagated state installed, and returns `None` rather than any
boolean. -/
theorem C1_solve_returns_none (b : Board) (hb : WfBoard b) :
    (solve b).2 = none ∧ (naked_single (solve b).1).2 = false := by
  refine ⟨solve_snd b, ?_⟩
  rw [solve_fst]
  exact (solveLoop_no_progress (totalCandidates b + 1) b hb (by omega)).1

/-- C1 (witness): the amended statement instantiated on the empty board. -/
theorem C1_solve_returns_none_witness :
    WfBoard emptyBoard
    ∧ ((solve emptyBoard).2 = none
        ∧ (naked_single (solve emptyBoard).1).2 = false) :=
  ⟨wf_emptyBoard, C1_solve_returns_none emptyBoard wf_emptyBoard⟩

/-- C2: `Tile.remove_candidates used_values` returns `false` and leaves the
tile unchanged when no member of `used_values` is a candidate; it returns
`true` whenever at least one candidate is removed; and when the removal
leaves exactly one candidate `v` (a symbol of the alphabet, as every
candidate is), the tile ends with `value = v` and `candidates = {v}`, i.e.
`set_value` was invoked with the remaining candidate. -/
theorem C2_remove_candidates_contract (t : Tile) (used : Finset Char) :
    ((∀ v ∈ used, v ∉ t.candidates) → Tile.remove_candidates t used = (t, false))
    ∧ ((∃ v ∈ used, v ∈ t.candidates) → (Tile.remove_candidates t used).2 = true)
    ∧ (∀ v, v ∈ CHOICES → t.candidates \ used = {v}
        → t.candidates \ used ≠ t.candidates →
          (Tile.remove_candidates t used).1.value = v
          ∧ (Tile.remove_candidates t used).1.candidates = {v}) := by
  refine ⟨?_, ?_, ?_⟩
  · intro h
    have hdis : Disjoint t.candidates used :=
      Finset.disjoint_right.mpr h
    exact rc_of_eq t used (Finset.sdiff_eq_self_iff_disjoint.mpr hdis)
  · rintro ⟨v, hvu, hvc⟩
    refine rc_snd_true t used (fun he => ?_)
    have : v ∈ t.candidates \ used := he.symm ▸ hvc
    exact (Finset.mem_sdiff.mp this).2 hvu
  · intro v hv hone hne
    rw [rc_singleton t used v hv hone hne]
    exact ⟨rfl, rfl⟩

/-- C2 (witness): the three clauses of the contract exercised on an unset
tile with candidates {1, 2}: removing {7} is a no-op returning false;
removing {1} returns true and auto-sets the value to the remaining 2. -/
theorem C2_remove_candidates_contract_witness :
    (Tile.remove_candidates ⟨0, 0, UNKNOWN, {'1', '2'}⟩ {'7'}
        = (⟨0, 0, UNKNOWN, {'1', '2'}⟩, false))
    ∧ ((Tile.remove_candidates ⟨0, 0, UNKNOWN, {'1', '2'}⟩ {'1'}).2 = true)
    ∧ ((Tile.remove_candidates ⟨0, 0, UNKNOWN, {'1', '2'}⟩ {'1'}).1.value = '2'
        ∧ (Tile.remove_candidates ⟨0, 0, UNKNOWN, {'1', '2'}⟩ {'1'}).1.candidates
            = {'2'}) :=
  ⟨(C2_remove_candidates_contract ⟨0, 0, UNKNOWN, {'1', '2'}⟩ {'7'}).1
      (by decide),
    (C2_remove_candidates_contract ⟨0, 0, UNKNOWN, {'1', '2'}⟩ {'1'}).2.1
      ⟨'1', by decide, by decide⟩,
    (C2_remove_candidates_contract ⟨0, 0, UNKNOWN, {'1', '2'}⟩ {'1'}).2.2 '2'
      (by decide) (by decide) (by decide)⟩

/-- C3: a single `naked_single` pass reports `true` exactly when it
eliminated at least one candidate somewhere, i.e. exactly when the total
candidate count strictly decreased across the pass; and on the empty grid
(all tiles unset) it returns `false`. -/
theorem C3_naked_single_progress_iff (b : Board) (hb : WfBoard b) :
    ((naked_single b).2 = true
      ↔ totalCandidates (naked_single b).1 < totalCandidates b)
    ∧ (naked_single emptyBoard).2 = false := by
  refine ⟨⟨fun h => naked_single_tc_lt b hb h, fun hlt => ?_⟩, ?_⟩
  · by_contra hfalse
    have hf : (naked_single b).2 = false := by
      rcases Bool.eq_false_or_eq_true (naked_single b).2 with h | h
      · exact absurd h hfalse
      · exact h
    rw [naked_single_eq_of_false b hf] at hlt
    omega
  · rw [naked_single_emptyBoard]

/-- C3 (witness): the progress criterion instantiated on the empty board
(whose pass reports no progress and leaves the candidate count unchanged). -/
theorem C3_naked_single_progress_iff_witness :
    WfBoard emptyBoard
    ∧ (((naked_single emptyBoard).2 = true
        ↔ totalCandidates (naked_single emptyBoard).1
            < totalCandidates emptyBoard)
      ∧ (naked_single emptyBoard).2 = false) :=
  ⟨wf_emptyBoard, C3_naked_single_progress_iff emptyBoard wf_emptyBoard⟩

/-- C4: `is_consistent` returns false exactly when some group contains a
symbol of the alphabet occurring at least twice among its tiles' set values
(the group lists being duplicate-free, two occurrences are two distinct
tiles); otherwise it returns true. -/
theorem C4_is_consistent_iff (b : Board) :
    (is_consistent b = false
      ↔ ∃ g ∈ groups, ∃ v ∈ CHOICES,
          2 ≤ ((g.map fun p => (getTile b p).value).count v))
    ∧ (∀ g ∈ groups, g.Nodup) :=
  ⟨is_consistent_false_iff b, by decide⟩

/-- C4 (witness): the group-distinctness clause extracted for the first row
group, and the duplicate criterion instantiated on the empty board. -/
theorem C4_is_consistent_iff_witness :
    rowGroupZero.Nodup
    ∧ (is_consistent emptyBoard = false
        ↔ ∃ g ∈ groups, ∃ v ∈ CHOICES,
            2 ≤ ((g.map fun p => (getTile emptyBoard p).value).count v)) :=
  ⟨(C4_is_consistent_iff emptyBoard).2 rowGroupZero (by decide),
    (C4_is_consistent_iff emptyBoard).1⟩

/-- C5 (counterexample): `remove_candidates` does not preserve the singleton
invariant on a tile whose value is already set: removing the set value 1
from the tile's singleton candidate set leaves value 1 installed with an
empty candidate set. -/
theorem C5_invariant_counterexample :
    (⟨0, 0, '1', {'1'}⟩ : Tile).value ∈ CHOICES
    ∧ TileInv (⟨0, 0, '1', {'1'}⟩ : Tile)
    ∧ ¬ TileInv (Tile.remove_candidates ⟨0, 0, '1', {'1'}⟩ {'1'}).1 := by
  decide

/-- C5 (amended): construction and `set_value` always establish the
invariant "value set implies candidates is the singleton of the value", and
`remove_candidates` preserves it whenever the tile's value is unset at the
call, which is the only way `naked_single` ever invokes it. -/
theorem C5_invariant_amended :
    (∀ r c v t, Tile.init r c v = some t → TileInv t)
    ∧ (∀ t v, TileInv (Tile.set_value t v))
    ∧ (∀ (t : Tile) (used : Finset Char), t.value = UNKNOWN →
        TileInv (Tile.remove_candidates t used).1) := by
  have hset : ∀ t v, TileInv (Tile.set_value t v) := by
    intro t v
    unfold Tile.set_value
    split
    · intro _
      rfl
    · intro hmem
      exact absurd hmem unknown_not_mem_choices
  refine ⟨?_, hset, ?_⟩
  · intro r c v t hinit
    unfold Tile.init at hinit
    split at hinit
    · injection hinit with he
      rw [← he]
      exact hset _ _
    · exact Option.noConfusion hinit
  · intro t used hunset
    unfold Tile.remove_candidates
    split
    · intro hmem
      rw [hunset] at hmem
      exact absurd hmem unknown_not_mem_choices
    · split
      · exact hset _ _
      · intro hmem
        rw [hunset] at hmem
        exact absurd hmem unknown_not_mem_choices

/-- C5 (witness): the amended invariant exercised on a constructed tile and
on an unset tile whose candidate 2 is removed (auto-setting value 1). -/
theorem C5_invariant_amended_witness :
    (Tile.init 0 0 '3' = some ⟨0, 0, '3', {'3'}⟩)
    ∧ TileInv (⟨0, 0, '3', {'3'}⟩ : Tile)
    ∧ TileInv (Tile.remove_candidates ⟨0, 0, UNKNOWN, {'1', '2'}⟩ {'2'}).1 :=
  ⟨by decide,
    C5_invariant_amended.1 0 0 '3' ⟨0, 0, '3', {'3'}⟩ (by decide),
    C5_invariant_amended.2.2 ⟨0, 0, UNKNOWN, {'1', '2'}⟩ {'2'} rfl⟩

/-- C6 (counterexample): feeding the row-serialised values of a reachable
grid state (a 1 placed at (0,0), the candidate 1 eliminated from the unset
tile (0,1)) back into `set_tiles` does not reproduce the candidate sets:
the unset tile's pruned candidates are reset to the full alphabet. -/
theorem C6_round_trip_counterexample :
    (getTile (set_tiles bCex (toRows bCex)) (0, 1)).candidates
      ≠ (getTile bCex (0, 1)).candidates := by
  have hir : InRange bCex (0, 1) := inRange_bCex (0, 1) (by decide) (by decide)
  rw [getTile_set_tiles bCex (toRows bCex) (0, 1),
    if_pos ⟨by decide, by decide, hir⟩]
  rw [toRows_getD bCex (0, 1) hir.1 hir.2, getTile_bCex_01]
  rw [set_value_of_not_mem _ _ (by decide)]
  decide

/-- C6 (amended): on every well-formed 9×9 grid state, the round trip
`set_tiles(toRows())` reproduces every tile's value, and re-derives every
tile's candidate set from the value alone (the singleton for a set tile,
the full alphabet for an unset tile), so candidates match only when they
carried no pruning. -/
theorem C6_round_trip_values (b : Board) (hlen : b.length = NROWS)
    (hrowlen : ∀ row ∈ b, row.length = NCOLS) (hwf : WfBoard b)
    (p : Nat × Nat) (h1 : p.1 < NROWS) (h2 : p.2 < NCOLS) :
    (getTile (set_tiles b (toRows b)) p).value = (getTile b p).value
    ∧ (getTile (set_tiles b (toRows b)) p).candidates
        = (if (getTile b p).value ∈ CHOICES
            then {(getTile b p).value} else CHOICES.toFinset) := by
  have hb1 : p.1 < b.length := by rw [hlen]; exact h1
  have hrowmem : b.getD p.1 [] ∈ b := by
    rw [List.getD_eq_getElem _ _ hb1]
    exact List.getElem_mem hb1
  have hb2 : p.2 < (b.getD p.1 []).length := by
    rw [hrowlen _ hrowmem]
    exact h2
  have hir : InRange b p := ⟨hb1, hb2⟩
  rw [getTile_set_tiles b (toRows b) p, if_pos ⟨h1, h2, hir⟩]
  rw [toRows_getD b p hb1 hb2]
  by_cases hv : (getTile b p).value ∈ CHOICES
  · rw [set_value_of_mem _ _ hv, if_pos hv]
    exact ⟨rfl, rfl⟩
  · rw [set_value_of_not_mem _ _ hv, if_neg hv]
    refine ⟨?_, rfl⟩
    rcases (wf_getTile b hwf p).2 with hu | hmem
    · rw [hu]
    · exact absurd hmem hv

/-- C6 (witness): the amended round-trip statement instantiated on the
empty board at the corner tile. -/
theorem C6_round_trip_values_witness :
    (emptyBoard.length = NROWS)
    ∧ ((getTile (set_tiles emptyBoard (toRows emptyBoard)) (0, 0)).value
          = (getTile emptyBoard (0, 0)).value
        ∧ (getTile (set_tiles emptyBoard (toRows emptyBoard)) (0, 0)).candidates
            = (if (getTile emptyBoard (0, 0)).value ∈ CHOICES
                then {(getTile emptyBoard (0, 0)).value} else CHOICES.toFinset)) :=
  ⟨emptyBoard_length,
    C6_round_trip_values emptyBoard emptyBoard_length emptyBoard_rowlen
      wf_emptyBoard (0, 0) (by decide) (by decide)⟩

/-- C7: the propagation loop of `solve` terminates within the bound given by
the total candidate count: one `naked_single` pass never increases the total
candidate count, strictly decreases it whenever it reports progress, and
with fuel `totalCandidates b + 1` the loop reaches a pass reporting no
progress, after which any extra fuel leaves the result unchanged. -/
theorem C7_propagation_terminates (b : Board) (hb : WfBoard b) (k : Nat) :
    (totalCandidates (naked_single b).1 ≤ totalCandidates b)
    ∧ ((naked_single b).2 = true
        → totalCandidates (naked_single b).1 < totalCandidates b)
    ∧ ((naked_single (solveLoop (totalCandidates b + 1) b)).2 = false)
    ∧ (solveLoop (totalCandidates b + 1 + k) b
        = solveLoop (totalCandidates b + 1) b) :=
  ⟨naked_single_tc_le b hb,
    fun h => naked_single_tc_lt b hb h,
    (solveLoop_no_progress (totalCandidates b + 1) b hb (by omega)).1,
    solveLoop_fuel_stable k (totalCandidates b + 1) b hb (by omega)⟩

/-- C7 (witness): the termination bound instantiated on the empty board
with five units of extra fuel. -/
theorem C7_propagation_terminates_witness :
    WfBoard emptyBoard
    ∧ ((totalCandidates (naked_single emptyBoard).1
          ≤ totalCandidates emptyBoard)
      ∧ ((naked_single emptyBoard).2 = true
          → totalCandidates (naked_single emptyBoard).1
              < totalCandidates emptyBoard)
      ∧ ((naked_single
            (solveLoop (totalCandidates emptyBoard + 1) emptyBoard)).2 = false)
      ∧ (solveLoop (totalCandidates emptyBoard + 1 + 5) emptyBoard
          = solveLoop (totalCandidates emptyBoard + 1) emptyBoard)) :=
  ⟨wf_emptyBoard, C7_propagation_terminates emptyBoard wf_emptyBoard 5⟩

/-- C8: calling `set_value` twice in a row with the same value produces the
same observable tile state (value and candidate set) as calling it once;
the embedding of `set_value` is total, so no exception is possible (the
second call merely emits a second notification, which carries no state). -/
theorem C8_set_value_idempotent (t : Tile) (v : Char) :
    Tile.set_value (Tile.set_value t v) v = Tile.set_value t v := by
  unfold Tile.set_value
  by_cases h : v ∈ CHOICES
  · rw [if_pos h, if_pos h]
  · rw [if_neg h, if_neg h]

/-- C9: `set_value` applied to any value outside the alphabet — not only the
placeholder — raises nothing: it stores `UNKNOWN` and resets the candidates
to the full alphabet; only the `Tile` constructor guards its value argument
with an assertion (modelled by `Tile.init` returning `none`). -/
theorem C9_set_value_out_of_alphabet (t : Tile) (v : Char) (r c : Nat)
    (hv : v ∉ CHOICES) :
    (Tile.set_value t v).value = UNKNOWN
    ∧ (Tile.set_value t v).candidates = CHOICES.toFinset
    ∧ ((Tile.init r c v).isSome ↔ v = UNKNOWN) := by
  rw [set_value_of_not_mem _ _ hv]
  refine ⟨rfl, rfl, ?_⟩
  unfold Tile.init
  constructor
  · intro hsome
    by_cases hu : v = UNKNOWN
    · exact hu
    · rw [if_neg (fun hor => hor.elim hu hv)] at hsome
      simp at hsome
  · intro hu
    rw [if_pos (Or.inl hu)]
    rfl

/-- C9 (witness): the out-of-alphabet contract exercised with the letter x,
which is neither a symbol nor the placeholder. -/
theorem C9_set_value_out_of_alphabet_witness :
    ('x' ∉ CHOICES)
    ∧ ((Tile.set_value ⟨0, 0, UNKNOWN, ∅⟩ 'x').value = UNKNOWN
      ∧ (Tile.set_value ⟨0, 0, UNKNOWN, ∅⟩ 'x').candidates = CHOICES.toFinset
      ∧ ((Tile.init 0 0 'x').isSome ↔ 'x' = UNKNOWN)) :=
  ⟨by decide,
    C9_set_value_out_of_alphabet ⟨0, 0, UNKNOWN, ∅⟩ 'x' 0 0 (by decide)⟩

/-- C10: a `naked_single` pass never modifies a tile whose value is already a
concrete symbol at the start of the pass: such a tile (value and candidate
set alike) is identical when the pass completes; only unset tiles are ever
passed to `remove_candidates`. -/
theorem C10_naked_single_frame (b : Board) (p : Nat × Nat)
    (h : (getTile b p).value ∈ CHOICES) :
    getTile (naked_single b).1 p = getTile b p :=
  naked_single_frame b p (fun he => unknown_not_mem_choices (he ▸ h))

/-- C10 (witness): the frame property instantiated on the board holding a 1
at the corner: the pass leaves that tile untouched. -/
theorem C10_naked_single_frame_witness :
    (getTile bOne (0, 0)).value ∈ CHOICES
    ∧ getTile (naked_single bOne).1 (0, 0) = getTile bOne (0, 0) := by
  have h : (getTile bOne (0, 0)).value ∈ CHOICES := by
    rw [getTile_bOne]
    decide
  exact ⟨h, C10_naked_single_frame bOne (0, 0) h⟩

end Sudoku
